import Mathlib

/-!
Verification development for the Arctan-MB2BSP multiboot2 bootstrapper
(`src/c/multiboot/mbparse.c`, data model in `src/c/include/arctan.h`).

The file shallowly embeds `read_mb2i` and the data it manipulates:

* machine integers are `Nat` with explicit `% 2^32` / `% 2^64` where the C
  code can wrap (the bootstrap is 32-bit i386 code: `size_t`, pointers and
  `int` are 32 bits wide; `uint64_t` fields are 64 bits) — including the
  pointer arithmetic of the tag loop itself: the `end` bound, the record
  advance and the recorded tag addresses all wrap mod `2^32`;
* the opaque tag stream is modelled as a list of structured records laid out
  at byte offsets, with the loop's pointer arithmetic made explicit;
* the inner page-mapping loop's `uint64_t j` wraps: for a region length
  above `2^64 - 0x1000` the loop condition never fails and the program does
  not terminate; the model marks such runs `diverged` instead of completing
  them;
* the external collaborators (`init_pmm`, `Arc_ListContiguousAlloc`,
  `map_page`, `Arc_SetTerm`) are oracles: the embedding records the calls
  that `read_mb2i` makes and threads the oracle answers through;
* C undefined behaviour that stops execution (integer division by zero) and
  the `ARC_HANG` halt are explicit outcomes of the model.

The `ALIGN(x, 8)` macro lives in `util.h`, which is not part of the sources
here; following the documented alignment rule it is round-up to the next
multiple of 8.  `struct multiboot_tag` is the standard multiboot2 header
`{u32 type; u32 size}` (8 bytes), `struct multiboot_tag_mmap` has a 16-byte
header, and `struct ARC_MMap` (packed `{int; u64; u64}`) is 20 bytes.
-/

namespace MB2

deriving instance DecidableEq for Except

/-- Wrap to a 64-bit unsigned value (`uint64_t` arithmetic). -/
def u64Mod (x : Nat) : Nat := x % 2 ^ 64

/-- Wrap to a 32-bit unsigned value (i386 pointer / `uint32_t` arithmetic). -/
def u32Mod (x : Nat) : Nat := x % 2 ^ 32

/-- 32-bit unsigned subtraction `a - b` for `a b < 2^32` (`uint32_t` wrap). -/
def u32sub (a b : Nat) : Nat := (2 ^ 32 + a - b) % 2 ^ 32

/-- ALIGN(x, 8) from `util.h`: round `x` up to the next multiple of 8
(spec §4.1 alignment rule; `(((x) + 7) & ~7)`). -/
def align8 (x : Nat) : Nat := (x + 7) / 8 * 8

/-- Number of iterations a C `for (int i = 0; i < entries; i++)` loop runs
when `entries` holds the 32-bit pattern `bits`: a non-negative `int` runs
`bits` iterations, a negative one (bit 31 set) runs none. -/
def intLoopCount (bits : Nat) : Nat := if bits < 2 ^ 31 then bits else 0

/-- `entries * sizeof(struct ARC_MMap) / 0x1000` as the 32-bit C expression:
`sizeof(struct ARC_MMap) = 20` (packed int + u64 + u64), the product wraps
`size_t` (32-bit), and the division is integer (floor) division. -/
def arcMmapSize (bits : Nat) : Nat := bits * 20 % 2 ^ 32 / 0x1000

/-- One `struct multiboot_mmap_entry`: `{u64 addr; u64 len; u32 type}`. -/
structure MMapEntry where
  addr : Nat
  len : Nat
  typ : Nat
deriving Repr, DecidableEq

/-- Payload of one multiboot2 tag record, as `read_mb2i` reads it.
`other` covers tag kinds with no `case` in the dispatch switch (skipped). -/
inductive TagBody where
  | mmap (entry_size entry_version : Nat) (entries : List MMapEntry)
  | module (mod_start mod_end : Nat) (cmdline : String)
  | framebuffer (addr width height pitch : Nat)
  | loaderName (s : String)
  | basicMeminfo (mem_lower mem_upper : Nat)
  | loadBaseAddr (load_base_addr : Nat)
  | acpiNew
  | acpiOld
  | other (t : Nat)
deriving Repr, DecidableEq

/-- The numeric `tag->type` value of a record (constants of multiboot2.h:
BOOT_LOADER_NAME 2, MODULE 3, BASIC_MEMINFO 4, MMAP 6, FRAMEBUFFER 8,
ACPI_OLD 14, ACPI_NEW 15, LOAD_BASE_ADDR 21; END is 0). -/
def TagBody.typeNum : TagBody → Nat
  | .mmap _ _ _ => 6
  | .module _ _ _ => 3
  | .framebuffer _ _ _ _ => 8
  | .loaderName _ => 2
  | .basicMeminfo _ _ => 4
  | .loadBaseAddr _ => 21
  | .acpiNew => 15
  | .acpiOld => 14
  | .other t => t

/-- One tag record: `tag->size` (u32, bytes including the 8-byte header)
and the structured payload. -/
structure MBTag where
  size : Nat
  body : TagBody
deriving Repr, DecidableEq

/-- `struct ARC_BootMeta` (arctan.h), the fields `read_mb2i` touches.
Initialized to all-zero before the walk. -/
structure BootMeta where
  boot_info : Nat := 0
  highest_address : Nat := 0
  kernel_elf : Nat := 0
  initramfs : Nat := 0
  initramfs_size : Nat := 0
  hhdm_vaddr : Nat := 0
  arc_mmap : Nat := 0
  arc_mmap_len : Nat := 0
  rsdp : Nat := 0
deriving Repr, DecidableEq

/-- The memory-map tag remembered by the local `mmap` pointer: the address
of the tag record plus the payload fields the later phases read. -/
structure MMapTagInfo where
  pos : Nat
  size : Nat
  entry_size : Nat
  entry_version : Nat
  ents : List MMapEntry
deriving Repr, DecidableEq

/-- The walker's mutable state: `_boot_meta`, the locals `mmap`, `entries`
and `bootstrap_end`, the `mb2_boot_info.fb` field, the `Arc_SetTerm` calls
made so far, and a ghost trace of the record positions processed. -/
structure WalkState where
  meta : BootMeta
  mmapTag : Option MMapTagInfo
  entries : Nat
  bootstrap_end : Nat
  fb : Nat
  termCalls : List (Nat × Nat × Nat × Nat)
  visited : List Nat
deriving Repr, DecidableEq

/-- Walker state on entry to the tag loop: zeroed `_boot_meta`,
`mmap = NULL`, `entries = 0`, `bootstrap_end = &__BOOTSTRAP_END__`. -/
def initState (bootstrapEnd0 : Nat) : WalkState :=
  { meta := {}, mmapTag := none, entries := 0, bootstrap_end := bootstrapEnd0,
    fb := 0, termCalls := [], visited := [] }

/-- `if (_boot_meta.highest_address < entry.addr + entry.len) highest = ...`:
the running-maximum update of the memory-map loop. -/
def hstep (h v : Nat) : Nat := if h < v then v else h

/-- The `for (i = 0; i < entries; i++)` maximum loop over memory-map
entries (each sum `entry.addr + entry.len` wraps as `uint64_t`). -/
def mmapHighestGo (h : Nat) : List MMapEntry → Nat
  | [] => h
  | e :: es => mmapHighestGo (hstep h (u64Mod (e.addr + e.len))) es

/-- The 32-bit value the C `int entries` receives for a memory-map tag:
`(mmap->size - sizeof(struct multiboot_tag_mmap)) / mmap->entry_size` with
the 16-byte header, u32 subtraction and u32 division. Defined only for a
nonzero divisor; divisor zero is a division fault (see `processTag`). -/
def entriesBits (size entry_size : Nat) : Nat := u32sub size 16 / entry_size

/-- Faults of the model: the unguarded C division `/ mmap->entry_size`
with a zero divisor is undefined behaviour (a divide fault on x86), not a
detected error — `read_mb2i` has no stream-corruption check. -/
inductive MBFault where
  | divisionFault
deriving Repr, DecidableEq

/-- Whether the switch body for tag `t` performs a division by zero. -/
def tagFaults (t : MBTag) : Bool :=
  match t.body with
  | .mmap es _ _ => es = 0
  | _ => false

/-- The switch body of the tag loop for the record at address `pos`
(a 32-bit pointer value, maintained wrapped), as a total function (used
when `tagFaults t = false`).  Mirrors the `switch` in `read_mb2i` case by
case; note that the LOAD_BASE_ADDR case has no `break` and falls through
into the ACPI_NEW/ACPI_OLD case, so it also assigns `_boot_meta.rsdp`
(`(uint8_t *)tag + 8` is 32-bit pointer arithmetic, hence `u32Mod`).
The modelled entry list of a memory-map tag is the payload decoded at the
code's fixed stride `sizeof(struct multiboot_mmap_entry) = 24` — the code
indexes `mmap->entries[i]` at that stride regardless of the declared
`entry_size`, so well-formedness (below) demands `entry_size = 24`; for
inconsistent streams the code reads past the record, which the model does
not represent (`List.take` caps at the entries present). -/
def processTagFn (pos : Nat) (t : MBTag) (s0 : WalkState) : WalkState :=
  let s := { s0 with visited := s0.visited ++ [pos] }
  match t.body with
  | .mmap es ev ents =>
      let bits := entriesBits t.size es
      { s with
        mmapTag := some ⟨pos, t.size, es, ev, ents⟩,
        entries := bits,
        meta := { s.meta with
          highest_address :=
            mmapHighestGo s.meta.highest_address (ents.take (intLoopCount bits)) } }
  | .module ms me cmd =>
      let s1 :=
        if cmd = "arctan-module.kernel.elf" then
          { s with meta := { s.meta with kernel_elf := ms } }
        else if cmd = "arctan-module.initramfs.cpio" then
          { s with meta := { s.meta with initramfs := ms, initramfs_size := u32sub me ms } }
        else s
      if me > s1.bootstrap_end then { s1 with bootstrap_end := me } else s1
  | .framebuffer addr w h p =>
      { s with termCalls := s.termCalls ++ [(u32Mod addr, w, h, p)], fb := pos }
  | .loaderName _ => s
  | .basicMeminfo _ _ => s
  | .loadBaseAddr _ => { s with meta := { s.meta with rsdp := u32Mod (pos + 8) } }
  | .acpiNew => { s with meta := { s.meta with rsdp := u32Mod (pos + 8) } }
  | .acpiOld => { s with meta := { s.meta with rsdp := u32Mod (pos + 8) } }
  | .other _ => s

/-- One switch dispatch, faulting when the memory-map case divides by a
zero `entry_size`. -/
def processTag (pos : Nat) (t : MBTag) (s : WalkState) : Except MBFault WalkState :=
  if tagFaults t then .error .divisionFault else .ok (processTagFn pos t s)

/-- The tag loop `while (tag->type != 0 && tag < end) { switch; tag += ALIGN(tag->size, 8); }`.
`endB` is the `end` pointer and `pos` the `tag` pointer, both 32-bit
values; the advance `(uintptr_t)tag + ALIGN(tag->size, 8)` is i386 pointer
arithmetic and wraps mod `2^32`, so the `tag < end` guard can cut the walk
short (or stop it immediately) when the stream layout wraps the address
space.  The modelled stream is a finite record list; a well-formed stream
terminates inside it (theorems assume well-formedness), so the empty-list
fallback is inert. -/
def walkTags (endB : Nat) : Nat → List MBTag → WalkState → Except MBFault WalkState
  | _, [], s => .ok s
  | pos, t :: ts, s =>
      if t.body.typeNum ≠ 0 ∧ pos < endB then
        match processTag pos t s with
        | .error f => .error f
        | .ok s' => walkTags endB (u32Mod (pos + align8 t.size)) ts s'
      else .ok s

/-- The guard-free tag fold: what the loop computes on a stream prefix all
of whose records are processed (used to reason about `walkTags`); the
position advance wraps exactly as in `walkTags`. -/
def walkFn : Nat → List MBTag → WalkState → WalkState
  | _, [], s => s
  | pos, t :: ts, s => walkFn (u32Mod (pos + align8 t.size)) ts (processTagFn pos t s)

/-- `struct ARC_MMap` (arctan.h): `{int type; u64 base; u64 len}`. -/
structure ARC_MMap where
  type : Nat
  base : Nat
  len : Nat
deriving Repr, DecidableEq

/-- The HHDM base constant assigned by `read_mb2i`:
`_boot_meta.hhdm_vaddr = 0xFFFFC00000000000`. -/
def hhdmBase : Nat := 0xFFFFC00000000000

/-- The page-offset sequence of `for (uint64_t j = 0; j < len; j += 0x1000)`
in the terminating regime `len ≤ 2^64 - 0x1000`: `0, 0x1000, ...` while
below `len` (so a final partial page gets a step).  For larger `len` the
u64 `j` wraps before ever reaching `len` and the loop does not terminate —
that case is detected by `pageStepsDiverge` and never enumerated. -/
def pageSteps (len : Nat) : List Nat :=
  (List.range ((len + 0xFFF) / 0x1000)).map (· * 0x1000)

/-- Whether the page loop for a region of length `len` fails to terminate:
`j` takes every multiple of 0x1000 below `2^64` and then wraps to 0, so
the condition `j < len` never becomes false exactly when
`len > 2^64 - 0x1000`. -/
def pageStepsDiverge (len : Nat) : Bool := decide (2 ^ 64 - 0x1000 < len)

/-- Result of the inner page-mapping loop of one region. -/
structure PagesOut where
  calls : List (Nat × Nat × Nat)
  nextK : Nat
  halted : Bool
deriving Repr, DecidableEq

/-- The inner loop mapping one region: for each step `j`, compute
`linear = entry.addr + j` (u64) and call
`map_page(pml4, linear + ARC_HHDM_VADDR, linear, 1)`.  The oracle
`mapOk k` says whether the `k`-th `map_page` call of the run succeeds;
on failure (`pml4 == NULL`) the code prints and executes `ARC_HANG`. -/
def mapPagesGo (mapOk : Nat → Bool) (hhdm addr : Nat) :
    List Nat → Nat → PagesOut
  | [], k => ⟨[], k, false⟩
  | j :: js, k =>
      let linear := u64Mod (addr + j)
      let c := (u64Mod (linear + hhdm), linear, 1)
      if mapOk k then
        let r := mapPagesGo mapOk hhdm addr js (k + 1)
        ⟨c :: r.calls, r.nextK, r.halted⟩
      else ⟨[c], k + 1, true⟩

/-- Result of the copy-and-map loop over the memory-map entries.
`diverged` marks a run that entered a page loop that never terminates. -/
structure LoopOut where
  normalized : List ARC_MMap
  calls : List (Nat × Nat × Nat)
  nextK : Nat
  halted : Bool
  diverged : Bool
deriving Repr, DecidableEq

/-- The `for (i = 0; i < entries; i++)` loop of the bootstrap phase: copy
entry `i` into `mmap_entries[i]`, then map its pages; `ARC_HANG` on a
failed `map_page` stops everything (the current entry is already copied).
An entry whose length makes the page loop non-terminating
(`pageStepsDiverge`) is marked `diverged` after its copy: the program then
either loops forever or hangs inside that loop — it never completes the
entry, reaches later entries, or returns — and the model records no calls
for it (they are not claimed by any theorem). -/
def bootLoopGo (mapOk : Nat → Bool) (hhdm : Nat) :
    List MMapEntry → Nat → LoopOut
  | [], k => ⟨[], [], k, false, false⟩
  | e :: es, k =>
      let arc : ARC_MMap := ⟨e.typ, e.addr, e.len⟩
      if pageStepsDiverge e.len then ⟨[arc], [], k, false, true⟩
      else
        let r := mapPagesGo mapOk hhdm e.addr (pageSteps e.len) k
        if r.halted then ⟨[arc], r.calls, r.nextK, true, false⟩
        else
          let rest := bootLoopGo mapOk hhdm es r.nextK
          ⟨arc :: rest.normalized, r.calls ++ rest.calls, rest.nextK,
            rest.halted, rest.diverged⟩

/-- Everything observable about one execution of `read_mb2i`: the final
`_boot_meta`, the arguments of the calls into the external collaborators,
the normalized map written, whether `ARC_HANG` was reached, whether the
program entered a non-terminating page loop, and the return value
(`some 0` on normal return, `none` when the program halted or never
returns). -/
structure MB2Run where
  meta : BootMeta
  mbiPhys : Nat
  pmmMMapArg : Option Nat
  pmmReservedArg : Nat
  allocArg : Nat
  memsetLen : Nat
  normalized : List ARC_MMap
  mapCalls : List (Nat × Nat × Nat)
  termCalls : List (Nat × Nat × Nat × Nat)
  visited : List Nat
  halted : Bool
  diverged : Bool
  ret : Option Nat
deriving Repr, DecidableEq

/-- The payload entry list of the remembered memory-map tag (empty when
`mmap == NULL`). -/
def mmapEntsOf : Option MMapTagInfo → List MMapEntry
  | none => []
  | some i => i.ents

/-- Model of `read_mb2i(mb2i)`: `mbi` is the stream address, `total` the u32 at
`mbi` (the stream's declared total byte length, read as `tag->type`),
`bootstrapEnd0 = &__BOOTSTRAP_END__`, `bootInfoAddr = &mb2_boot_info`,
`alloc` the `Arc_ListContiguousAlloc` oracle and `mapOk` the `map_page`
success oracle.  Note `end = (struct multiboot_tag *)(tag + tag->type)`
scales by `sizeof(struct multiboot_tag) = 8` and is 32-bit pointer
arithmetic, so the loop bound is `(mbi + 8 * total) mod 2^32` — for
high-address or large-total streams the bound wraps and the guard
`tag < end` can stop the walk before (or instead of) the terminator.
After the walk the `mkRun` phase below runs.
The code after the tag loop, given the walk's final state `s`:
`init_pmm(mmap, bootstrap_end)`, the normalized-map allocation
(`entries * sizeof(struct ARC_MMap) / 0x1000`, floor, passed both to the
allocator and to `memset` — never checked for failure), publication of
`arc_mmap`/`arc_mmap_len`/`hhdm_vaddr`, the copy-and-map loop, and finally
`_boot_meta.boot_info = &mb2_boot_info` and `return 0` (skipped when the
loop hit `ARC_HANG`). -/
def mkRun (mbi bootInfoAddr : Nat) (alloc : Nat → Nat) (mapOk : Nat → Bool)
    (s : WalkState) : MB2Run :=
  let n := intLoopCount s.entries
  let aSize := arcMmapSize s.entries
  let buf := alloc aSize
  let meta1 := { s.meta with arc_mmap := buf, arc_mmap_len := s.entries,
                             hhdm_vaddr := hhdmBase }
  let lo := bootLoopGo mapOk hhdmBase ((mmapEntsOf s.mmapTag).take n) 0
  { meta := if lo.halted || lo.diverged then meta1
            else { meta1 with boot_info := bootInfoAddr },
    mbiPhys := u32Mod mbi,
    pmmMMapArg := s.mmapTag.map (fun i => i.pos),
    pmmReservedArg := u32Mod s.bootstrap_end,
    allocArg := aSize,
    memsetLen := aSize,
    normalized := lo.normalized,
    mapCalls := lo.calls,
    termCalls := s.termCalls,
    visited := s.visited,
    halted := lo.halted,
    diverged := lo.diverged,
    ret := if lo.halted || lo.diverged then none else some 0 }

def read_mb2i (mbi total bootstrapEnd0 bootInfoAddr : Nat) (alloc : Nat → Nat)
    (mapOk : Nat → Bool) (tags : List MBTag) : Except MBFault MB2Run :=
  match walkTags (u32Mod (mbi + 8 * total)) (u32Mod (mbi + 8)) tags
      (initState bootstrapEnd0) with
  | .error f => .error f
  | .ok s => .ok (mkRun mbi bootInfoAddr alloc mapOk s)

/-! ## Stream layout and well-formedness -/

/-- Byte addresses at which successive records start, first record at `p`;
the advance wraps mod `2^32` exactly like the walker's `tag` pointer. -/
def tagOffsets (p : Nat) : List MBTag → List Nat
  | [] => []
  | t :: ts => p :: tagOffsets (u32Mod (p + align8 t.size)) ts

/-- Total bytes the records occupy (each padded to 8-byte alignment). -/
def streamBytes : List MBTag → Nat
  | [] => 0
  | t :: ts => align8 t.size + streamBytes ts

/-- Payload/size consistency of one record: a memory-map tag must declare
`entry_size = 24` — the code always strides `mmap->entries[i]` by
`sizeof(struct multiboot_mmap_entry) = 24`, so only then does the computed
entry count match the 24-byte-stride records the modelled list decodes —
and its declared size must cover exactly its entry list; an `other` record
must really be one of the kinds the switch has no case for. -/
def bodyOKb (t : MBTag) : Bool :=
  match t.body with
  | .mmap es _ ents =>
      decide (es = 24) && decide (t.size = 16 + 24 * ents.length) &&
      decide (ents.length < 2 ^ 31)
  | .other k => decide (k ∉ ([2, 3, 4, 6, 8, 14, 15, 21] : List Nat))
  | _ => true

/-- A processable (non-terminator) record: nonzero kind, a size that covers
at least the record header, a `u32` size field, consistent payload. -/
def goodTagB (t : MBTag) : Bool :=
  decide (t.body.typeNum ≠ 0) && decide (8 ≤ t.size) && decide (t.size < 2 ^ 32)
    && bodyOKb t

/-- The multiboot2 terminator record: kind 0, size 8. -/
def mb2EndTag : MBTag := ⟨8, .other 0⟩

/-- A well-formed tag stream: all records before the final one are
processable, the final record is the terminator, and the declared total
byte length is the 8-byte fixed header plus the records. -/
def WellFormed (total : Nat) (tags : List MBTag) : Prop :=
  (∀ t ∈ tags.dropLast, goodTagB t = true) ∧
  tags.getLast? = some mb2EndTag ∧
  total = 8 + streamBytes tags

instance (total : Nat) (tags : List MBTag) : Decidable (WellFormed total tags) :=
  inferInstanceAs (Decidable ((∀ t ∈ tags.dropLast, goodTagB t = true) ∧
    tags.getLast? = some mb2EndTag ∧ total = 8 + streamBytes tags))

/-- Whether a record is a memory-map tag. -/
def isMMapTag (t : MBTag) : Bool :=
  match t.body with
  | .mmap _ _ _ => true
  | _ => false

/-- The memory-map tag the walk leaves in the local `mmap` pointer: the
last memory-map record of the stream, if any, with its address (positions
advance wrapped, like the walker). -/
def lastMMapAcc : Nat → List MBTag → Option MMapTagInfo → Option MMapTagInfo
  | _, [], acc => acc
  | pos, t :: ts, acc =>
      match t.body with
      | .mmap es ev ents =>
          lastMMapAcc (u32Mod (pos + align8 t.size)) ts (some ⟨pos, t.size, es, ev, ents⟩)
      | _ => lastMMapAcc (u32Mod (pos + align8 t.size)) ts acc

/-- The value of the `int entries` local implied by the remembered
memory-map tag (0 while `mmap == NULL`). -/
def mmapBits : Option MMapTagInfo → Nat
  | none => 0
  | some i => entriesBits i.size i.entry_size

/-- The `(addr + len) mod 2^64` sums of one record's memory-map entries
(empty for non-memory-map records). -/
def tagSums (t : MBTag) : List Nat :=
  match t.body with
  | .mmap _ _ ents => ents.map (fun e => u64Mod (e.addr + e.len))
  | _ => []

/-- All `(addr + len) mod 2^64` sums of memory-map entries of a stream,
in order of appearance. -/
def mmapSums : List MBTag → List Nat
  | [] => []
  | t :: ts => tagSums t ++ mmapSums ts

/-- The `mod_start` values a record contributes to the kernel-module
matches (exact string "arctan-module.kernel.elf"). -/
def tagKernelStarts (t : MBTag) : List Nat :=
  match t.body with
  | .module ms _ cmd => if cmd = "arctan-module.kernel.elf" then [ms] else []
  | _ => []

/-- `mod_start` of every module record named exactly
"arctan-module.kernel.elf", in stream order. -/
def kernelModStarts : List MBTag → List Nat
  | [] => []
  | t :: ts => tagKernelStarts t ++ kernelModStarts ts

/-- The `(mod_start, mod_end)` pairs a record contributes to the initramfs
matches (exact string "arctan-module.initramfs.cpio"). -/
def tagInitramfsMods (t : MBTag) : List (Nat × Nat)  :=
  match t.body with
  | .module ms me cmd => if cmd = "arctan-module.initramfs.cpio" then [(ms, me)] else []
  | _ => []

/-- `(mod_start, mod_end)` of every module record named exactly
"arctan-module.initramfs.cpio", in stream order. -/
def initramfsMods : List MBTag → List (Nat × Nat)
  | [] => []
  | t :: ts => tagInitramfsMods t ++ initramfsMods ts

/-- The `map_page` calls `(virtual, physical, writable)` for steps `js`
from base address `addr`. -/
def stepCalls (hhdm addr : Nat) (js : List Nat) : List (Nat × Nat × Nat) :=
  js.map (fun j => (u64Mod (u64Mod (addr + j) + hhdm), u64Mod (addr + j), 1))

/-- All `map_page` calls one region generates. -/
def entryCalls (hhdm : Nat) (e : MMapEntry) : List (Nat × Nat × Nat) :=
  stepCalls hhdm e.addr (pageSteps e.len)

/-- All `map_page` calls of a full (non-halting) bootstrap, region by
region in order of appearance. -/
def plannedCalls (hhdm : Nat) : List MMapEntry → List (Nat × Nat × Nat)
  | [] => []
  | e :: es => entryCalls hhdm e ++ plannedCalls hhdm es

/-! ## Walker lemmas -/

theorem le_align8 (x : Nat) : x ≤ align8 x := by
  unfold align8; omega

theorem align8_pos (x : Nat) (h : 8 ≤ x) : 0 < align8 x :=
  Nat.lt_of_lt_of_le (by omega) (le_align8 x)

theorem goodTag_facts {t : MBTag} (h : goodTagB t = true) :
    t.body.typeNum ≠ 0 ∧ 8 ≤ t.size ∧ t.size < 2 ^ 32 ∧ bodyOKb t = true := by
  simp only [goodTagB, Bool.and_eq_true, decide_eq_true_eq] at h
  exact ⟨h.1.1.1, h.1.1.2, h.1.2, h.2⟩

theorem tagFaults_of_good {t : MBTag} (h : goodTagB t = true) : tagFaults t = false := by
  obtain ⟨size, body⟩ := t
  cases body <;> simp_all [goodTagB, bodyOKb, tagFaults]

theorem processTag_of_good (pos : Nat) (t : MBTag) (s : WalkState)
    (h : goodTagB t = true) : processTag pos t s = .ok (processTagFn pos t s) := by
  unfold processTag
  rw [tagFaults_of_good h]
  rfl

/-- On a stream of processable records followed by the terminator, laid
out below the (representable, i.e. `< 2^32`) end bound, the tag loop
processes exactly the processable records: no position computation wraps,
the kind-0 check stops the loop at the terminator, and the `tag < end`
bound never cuts it short. -/
theorem walkTags_eq_walkFn (endB : Nat) (pre : List MBTag) (last : MBTag)
    (hlast : last.body.typeNum = 0) (hend : endB < 2 ^ 32) :
    ∀ (pos : Nat) (s : WalkState), (∀ t ∈ pre, goodTagB t = true) →
      pos + streamBytes pre ≤ endB →
      walkTags endB pos (pre ++ [last]) s = .ok (walkFn pos pre s) := by
  induction pre with
  | nil =>
      intro pos s _ _
      simp [walkTags, walkFn, hlast]
  | cons t ts ih =>
      intro pos s hgood hbound
      have ht := hgood t (List.mem_cons_self t ts)
      have hf := goodTag_facts ht
      have h8 : 8 ≤ align8 t.size := le_trans hf.2.1 (le_align8 t.size)
      simp only [streamBytes] at hbound
      have hpos : pos < endB := by omega
      have hmod : u32Mod (pos + align8 t.size) = pos + align8 t.size := by
        unfold u32Mod
        exact Nat.mod_eq_of_lt (by omega)
      simp only [List.cons_append, walkTags, hf.1, hpos, and_true, ne_eq,
        not_false_eq_true, if_true, processTag_of_good pos t s ht]
      rw [walkFn, hmod]
      exact ih (pos + align8 t.size) (processTagFn pos t s)
        (fun u hu => hgood u (List.mem_cons_of_mem t hu))
        (by omega)

theorem processTagFn_visited (pos : Nat) (t : MBTag) (s : WalkState) :
    (processTagFn pos t s).visited = s.visited ++ [pos] := by
  obtain ⟨size, body⟩ := t
  cases body <;> simp only [processTagFn] <;> (repeat' split) <;> rfl

theorem walkFn_visited (pre : List MBTag) :
    ∀ (pos : Nat) (s : WalkState),
      (walkFn pos pre s).visited = s.visited ++ tagOffsets pos pre := by
  induction pre with
  | nil => intro pos s; simp [walkFn, tagOffsets]
  | cons t ts ih =>
      intro pos s
      rw [walkFn, ih, processTagFn_visited, tagOffsets]
      simp

theorem tagOffsets_chain (pre : List MBTag) :
    ∀ pos : Nat, (∀ t ∈ pre, 8 ≤ t.size) → pos + streamBytes pre < 2 ^ 32 →
      List.Chain' (· < ·) (tagOffsets pos pre) := by
  induction pre with
  | nil => intro pos _ _; simp [tagOffsets]
  | cons t ts ih =>
      intro pos hs hfit
      have h8 : 8 ≤ align8 t.size :=
        le_trans (hs t (List.mem_cons_self t ts)) (le_align8 t.size)
      simp only [streamBytes] at hfit
      have hmod : u32Mod (pos + align8 t.size) = pos + align8 t.size := by
        unfold u32Mod
        exact Nat.mod_eq_of_lt (by omega)
      rw [tagOffsets, hmod]
      rw [List.chain'_cons']
      refine ⟨?_, ih _ (fun u hu => hs u (List.mem_cons_of_mem t hu)) (by omega)⟩
      intro y hy
      cases ts with
      | nil => simp [tagOffsets] at hy
      | cons u us =>
          simp only [tagOffsets, List.head?_cons, Option.mem_def, Option.some.injEq] at hy
          omega

theorem tagOffsets_fit (pre : List MBTag) :
    ∀ pos : Nat, pos + streamBytes pre < 2 ^ 32 →
      ∀ x ∈ (tagOffsets pos pre).zip pre,
        x.1 + align8 x.2.size ≤ pos + streamBytes pre := by
  induction pre with
  | nil => intro pos _ x hx; simp [tagOffsets] at hx
  | cons t ts ih =>
      intro pos hfit x hx
      simp only [streamBytes] at hfit ⊢
      have hmod : u32Mod (pos + align8 t.size) = pos + align8 t.size := by
        unfold u32Mod
        exact Nat.mod_eq_of_lt (by omega)
      rw [tagOffsets, hmod] at hx
      rw [List.zip_cons_cons, List.mem_cons] at hx
      rcases hx with hx | hx
      · subst hx; dsimp only; omega
      · have := ih (pos + align8 t.size) (by omega) x hx
        omega

/-! ## Aggregator-state lemmas -/

theorem hstep_eq_max (h v : Nat) : hstep h v = max h v := by
  unfold hstep; split <;> omega

theorem hstep_mono (h v : Nat) : h ≤ hstep h v ∧ (hstep h v ≠ h → h < hstep h v) := by
  unfold hstep; split <;> omega

theorem mmapHighestGo_sums (l : List MMapEntry) :
    ∀ h : Nat, mmapHighestGo h l =
      (l.map (fun e => u64Mod (e.addr + e.len))).foldl hstep h := by
  induction l with
  | nil => intro h; rfl
  | cons e es ih => intro h; rw [mmapHighestGo, List.map_cons, List.foldl_cons, ih]

theorem entriesBits_of_good (size es n : Nat) (hes : es ≠ 0)
    (hsize : size = 16 + es * n) (hlt : size < 2 ^ 32) :
    entriesBits size es = n := by
  subst hsize
  unfold entriesBits u32sub
  have h1 : 2 ^ 32 + (16 + es * n) - 16 = 2 ^ 32 + es * n := by omega
  rw [h1, Nat.add_mod_left, Nat.mod_eq_of_lt (by omega),
    Nat.mul_div_cancel_left n (Nat.pos_of_ne_zero hes)]

theorem processTagFn_highest (pos : Nat) (t : MBTag) (s : WalkState)
    (h : goodTagB t = true) :
    (processTagFn pos t s).meta.highest_address =
      (tagSums t).foldl hstep s.meta.highest_address := by
  obtain ⟨size, body⟩ := t
  cases body with
  | mmap es ev ents =>
      simp only [goodTagB, bodyOKb, Bool.and_eq_true, decide_eq_true_eq] at h
      obtain ⟨⟨⟨-, -⟩, hlt32⟩, ⟨hes, hsz⟩, hcnt⟩ := h
      subst hes
      simp only [processTagFn, tagSums,
        entriesBits_of_good size 24 ents.length (by omega) hsz hlt32]
      rw [intLoopCount, if_pos (by omega), List.take_length, mmapHighestGo_sums]
  | module ms me cmd =>
      simp only [processTagFn, tagSums, List.foldl_nil]
      repeat' split
      all_goals rfl
  | _ => rfl

theorem mmapHighestGo_le (l : List MMapEntry) : ∀ h : Nat, h ≤ mmapHighestGo h l := by
  induction l with
  | nil => intro h; exact Nat.le_refl h
  | cons e es ih =>
      intro h
      exact le_trans (hstep_mono h (u64Mod (e.addr + e.len))).1 (ih _)

theorem processTagFn_highest_le (pos : Nat) (t : MBTag) (s : WalkState) :
    s.meta.highest_address ≤ (processTagFn pos t s).meta.highest_address := by
  obtain ⟨size, body⟩ := t
  cases body with
  | mmap es ev ents => exact mmapHighestGo_le _ _
  | module ms me cmd =>
      simp only [processTagFn]
      repeat' split
      all_goals exact Nat.le_refl _
  | _ => exact Nat.le_refl _

theorem mmapSums_append (l1 l2 : List MBTag) :
    mmapSums (l1 ++ l2) = mmapSums l1 ++ mmapSums l2 := by
  induction l1 with
  | nil => rfl
  | cons t ts ih => simp [mmapSums, ih]

theorem walkFn_highest (pre : List MBTag) :
    ∀ (pos : Nat) (s : WalkState), (∀ t ∈ pre, goodTagB t = true) →
      (walkFn pos pre s).meta.highest_address =
        (mmapSums pre).foldl hstep s.meta.highest_address := by
  induction pre with
  | nil => intro pos s _; rfl
  | cons t ts ih =>
      intro pos s hg
      rw [walkFn, ih _ _ (fun u hu => hg u (List.mem_cons_of_mem t hu)),
        mmapSums, List.foldl_append,
        processTagFn_highest pos t s (hg t (List.mem_cons_self t ts))]

/-! ## Module-field lemmas -/

theorem getLastD_append {α : Type} (l1 l2 : List α) (d : α) :
    (l1 ++ l2).getLastD d = l2.getLastD (l1.getLastD d) := by
  induction l1 generalizing d with
  | nil => rfl
  | cons a l1 ih => rw [List.cons_append, List.getLastD_cons, ih, List.getLastD_cons]

theorem processTagFn_kernel (pos : Nat) (t : MBTag) (s : WalkState) :
    (processTagFn pos t s).meta.kernel_elf =
      (tagKernelStarts t).getLastD s.meta.kernel_elf := by
  obtain ⟨size, body⟩ := t
  cases body <;> simp only [processTagFn, tagKernelStarts] <;> (repeat' split) <;>
    simp_all

theorem processTagFn_initramfs (pos : Nat) (t : MBTag) (s : WalkState) :
    (processTagFn pos t s).meta.initramfs =
      ((tagInitramfsMods t).map (fun m => m.1)).getLastD s.meta.initramfs ∧
    (processTagFn pos t s).meta.initramfs_size =
      ((tagInitramfsMods t).map (fun m => u32sub m.2 m.1)).getLastD
        s.meta.initramfs_size := by
  obtain ⟨size, body⟩ := t
  cases body <;> simp only [processTagFn, tagInitramfsMods] <;> (repeat' split) <;>
    simp_all

theorem walkFn_kernel (pre : List MBTag) :
    ∀ (pos : Nat) (s : WalkState),
      (walkFn pos pre s).meta.kernel_elf =
        (kernelModStarts pre).getLastD s.meta.kernel_elf := by
  induction pre with
  | nil => intro pos s; rfl
  | cons t ts ih =>
      intro pos s
      rw [walkFn, ih, kernelModStarts, getLastD_append, processTagFn_kernel]

theorem walkFn_initramfs (pre : List MBTag) :
    ∀ (pos : Nat) (s : WalkState),
      (walkFn pos pre s).meta.initramfs =
        ((initramfsMods pre).map (fun m => m.1)).getLastD s.meta.initramfs ∧
      (walkFn pos pre s).meta.initramfs_size =
        ((initramfsMods pre).map (fun m => u32sub m.2 m.1)).getLastD
          s.meta.initramfs_size := by
  induction pre with
  | nil => intro pos s; exact ⟨rfl, rfl⟩
  | cons t ts ih =>
      intro pos s
      constructor
      · rw [walkFn, (ih _ _).1, initramfsMods, List.map_append, getLastD_append,
          (processTagFn_initramfs pos t s).1]
      · rw [walkFn, (ih _ _).2, initramfsMods, List.map_append, getLastD_append,
          (processTagFn_initramfs pos t s).2]

/-! ## Memory-map bookkeeping lemmas -/

/-- How one record updates the remembered memory-map tag. -/
def mmapUpd (pos : Nat) (t : MBTag) (o : Option MMapTagInfo) : Option MMapTagInfo :=
  match t.body with
  | .mmap es ev ents => some ⟨pos, t.size, es, ev, ents⟩
  | _ => o

theorem processTagFn_mmap (pos : Nat) (t : MBTag) (s : WalkState)
    (hs : s.entries = mmapBits s.mmapTag) :
    (processTagFn pos t s).mmapTag = mmapUpd pos t s.mmapTag ∧
    (processTagFn pos t s).entries = mmapBits (mmapUpd pos t s.mmapTag) := by
  obtain ⟨size, body⟩ := t
  cases body <;> simp only [processTagFn, mmapUpd, mmapBits] <;> (repeat' split) <;>
    simp_all [mmapBits]

theorem lastMMapAcc_cons (pos : Nat) (t : MBTag) (ts : List MBTag)
    (acc : Option MMapTagInfo) :
    lastMMapAcc pos (t :: ts) acc =
      lastMMapAcc (u32Mod (pos + align8 t.size)) ts (mmapUpd pos t acc) := by
  obtain ⟨size, body⟩ := t
  cases body <;> rfl

theorem walkFn_mmap (pre : List MBTag) :
    ∀ (pos : Nat) (s : WalkState), s.entries = mmapBits s.mmapTag →
      (walkFn pos pre s).mmapTag = lastMMapAcc pos pre s.mmapTag ∧
      (walkFn pos pre s).entries = mmapBits (lastMMapAcc pos pre s.mmapTag) := by
  induction pre with
  | nil => intro pos s hs; exact ⟨rfl, hs⟩
  | cons t ts ih =>
      intro pos s hs
      rw [walkFn, lastMMapAcc_cons]
      have hp := processTagFn_mmap pos t s hs
      have := ih (u32Mod (pos + align8 t.size)) (processTagFn pos t s)
        (by rw [hp.1, hp.2])
      rwa [hp.1] at this

/-- A memory-map tag remembered at the end of the walk is either the one
already remembered or a record of the stream. -/
theorem lastMMapAcc_cases (pre : List MBTag) :
    ∀ (pos : Nat) (acc : Option MMapTagInfo) (info : MMapTagInfo),
      lastMMapAcc pos pre acc = some info →
      acc = some info ∨ ∃ t ∈ pre, t.size = info.size ∧
        t.body = .mmap info.entry_size info.entry_version info.ents := by
  induction pre with
  | nil => intro pos acc info h; exact Or.inl h
  | cons t ts ih =>
      intro pos acc info h
      rw [lastMMapAcc_cons] at h
      rcases ih _ _ _ h with hacc | ⟨u, hu, hsz, hb⟩
      · obtain ⟨size, body⟩ := t
        cases body with
        | mmap es ev ents =>
            simp only [mmapUpd, Option.some.injEq] at hacc
            refine Or.inr ⟨⟨size, .mmap es ev ents⟩, List.mem_cons_self _ _, ?_⟩
            rw [← hacc]
            exact ⟨rfl, rfl⟩
        | _ => exact Or.inl hacc
      · exact Or.inr ⟨u, List.mem_cons_of_mem t hu, hsz, hb⟩

/-- The entry count the bootstrap phase loops over, for a well-formed
stream whose last memory-map record carries entry list `info.ents`. -/
theorem mmapBits_of_good (pre : List MBTag) (pos : Nat) (info : MMapTagInfo)
    (hg : ∀ t ∈ pre, goodTagB t = true)
    (h : lastMMapAcc pos pre none = some info) :
    mmapBits (some info) = info.ents.length ∧ info.ents.length < 2 ^ 31 := by
  rcases lastMMapAcc_cases pre pos none info h with hacc | ⟨t, ht, hsz, hb⟩
  · exact absurd hacc (by simp)
  · have hgt := hg t ht
    obtain ⟨size, body⟩ := t
    simp only at hsz hb
    subst hb hsz
    simp only [goodTagB, bodyOKb, Bool.and_eq_true, decide_eq_true_eq] at hgt
    obtain ⟨⟨⟨-, -⟩, hlt32⟩, ⟨hes, hsz⟩, hcnt⟩ := hgt
    refine ⟨?_, hcnt⟩
    show entriesBits info.size info.entry_size = info.ents.length
    rw [hes]
    exact entriesBits_of_good _ _ _ (by omega) hsz hlt32

/-! ## Bootstrap-loop lemmas -/

theorem mapPagesGo_ok (mapOk : Nat → Bool) (hhdm addr : Nat) (js : List Nat) :
    ∀ k : Nat, (∀ i, i < js.length → mapOk (k + i) = true) →
      mapPagesGo mapOk hhdm addr js k = ⟨stepCalls hhdm addr js, k + js.length, false⟩ := by
  induction js with
  | nil => intro k _; simp [mapPagesGo, stepCalls]
  | cons j js ih =>
      intro k hk
      have h0 : mapOk k = true := by have := hk 0 (by simp); simpa using this
      rw [mapPagesGo]
      simp only [h0, if_true]
      rw [ih (k + 1) (fun i hi => by
        have := hk (i + 1) (by simpa using Nat.succ_lt_succ hi)
        rwa [show k + 1 + i = k + (i + 1) by omega])]
      simp [stepCalls]
      omega

theorem mapPagesGo_fail (mapOk : Nat → Bool) (hhdm addr : Nat) (js : List Nat) :
    ∀ k m : Nat, m < js.length → mapOk (k + m) = false →
      (∀ i, i < m → mapOk (k + i) = true) →
      mapPagesGo mapOk hhdm addr js k =
        ⟨(stepCalls hhdm addr js).take (m + 1), k + m + 1, true⟩ := by
  induction js with
  | nil => intro k m hm; simp at hm
  | cons j js ih =>
      intro k m hm hf hok
      cases m with
      | zero =>
          rw [mapPagesGo]
          simp only [show k + 0 = k from rfl] at hf
          simp [hf, stepCalls]
      | succ m =>
          have h0 : mapOk k = true := by have := hok 0 (by omega); simpa using this
          rw [mapPagesGo]
          simp only [h0, if_true]
          rw [ih (k + 1) m (by simpa using hm)
            (by rwa [show k + 1 + m = k + (m + 1) by omega])
            (fun i hi => by
              have := hok (i + 1) (by omega)
              rwa [show k + 1 + i = k + (i + 1) by omega])]
          simp only [stepCalls, List.map_cons, List.take_succ_cons, PagesOut.mk.injEq,
            true_and, and_true]
          omega

theorem entryCalls_length (hhdm : Nat) (e : MMapEntry) :
    (entryCalls hhdm e).length = (pageSteps e.len).length := by
  simp [entryCalls, stepCalls]

theorem plannedCalls_append_length (hhdm : Nat) (e : MMapEntry) (es : List MMapEntry) :
    plannedCalls hhdm (e :: es) = entryCalls hhdm e ++ plannedCalls hhdm es := rfl

theorem bootLoopGo_ok (mapOk : Nat → Bool) (hhdm : Nat) (ents : List MMapEntry) :
    ∀ k : Nat, (∀ e ∈ ents, pageStepsDiverge e.len = false) →
      (∀ i, i < (plannedCalls hhdm ents).length → mapOk (k + i) = true) →
      bootLoopGo mapOk hhdm ents k =
        ⟨ents.map (fun e => ⟨e.typ, e.addr, e.len⟩), plannedCalls hhdm ents,
          k + (plannedCalls hhdm ents).length, false, false⟩ := by
  induction ents with
  | nil => intro k _ _; simp [bootLoopGo, plannedCalls]
  | cons e es ih =>
      intro k hdiv hk
      have hlen : (plannedCalls hhdm (e :: es)).length =
          (pageSteps e.len).length + (plannedCalls hhdm es).length := by
        rw [plannedCalls_append_length, List.length_append, entryCalls_length]
      rw [bootLoopGo,
        if_neg (by simp [hdiv e (List.mem_cons_self e es)]),
        mapPagesGo_ok mapOk hhdm e.addr (pageSteps e.len) k
          (fun i hi => hk i (by omega))]
      simp only [if_neg Bool.false_ne_true]
      rw [ih (k + (pageSteps e.len).length)
        (fun u hu => hdiv u (List.mem_cons_of_mem e hu))
        (fun i hi => by
          have := hk ((pageSteps e.len).length + i) (by omega)
          rwa [show k + (pageSteps e.len).length + i =
            k + ((pageSteps e.len).length + i) by omega])]
      simp only [plannedCalls_append_length, List.map_cons, entryCalls,
        LoopOut.mk.injEq, true_and, and_true, List.length_append, stepCalls,
        List.length_map]
      omega

theorem bootLoopGo_fail (mapOk : Nat → Bool) (hhdm : Nat) (ents : List MMapEntry) :
    ∀ k m : Nat, (∀ e ∈ ents, pageStepsDiverge e.len = false) →
      m < (plannedCalls hhdm ents).length → mapOk (k + m) = false →
      (∀ i, i < m → mapOk (k + i) = true) →
      (bootLoopGo mapOk hhdm ents k).calls = (plannedCalls hhdm ents).take (m + 1) ∧
      (bootLoopGo mapOk hhdm ents k).halted = true := by
  induction ents with
  | nil => intro k m _ hm; simp [plannedCalls] at hm
  | cons e es ih =>
      intro k m hdiv hm hf hok
      have hec : (entryCalls hhdm e).length = (pageSteps e.len).length :=
        entryCalls_length hhdm e
      by_cases hcase : m < (pageSteps e.len).length
      · rw [bootLoopGo,
          if_neg (by simp [hdiv e (List.mem_cons_self e es)]),
          mapPagesGo_fail mapOk hhdm e.addr (pageSteps e.len) k m hcase hf hok]
        simp only [if_pos rfl]
        constructor
        · rw [plannedCalls_append_length, List.take_append_eq_append_take,
            show m + 1 - (entryCalls hhdm e).length = 0 by omega,
            List.take_zero, List.append_nil]
          rfl
        · rfl
      · push_neg at hcase
        rw [bootLoopGo,
          if_neg (by simp [hdiv e (List.mem_cons_self e es)]),
          mapPagesGo_ok mapOk hhdm e.addr (pageSteps e.len) k
            (fun i hi => hok i (by omega))]
        simp only [if_neg Bool.false_ne_true]
        have hm' : m - (pageSteps e.len).length < (plannedCalls hhdm es).length := by
          rw [plannedCalls_append_length, List.length_append, hec] at hm
          omega
        have hrec := ih (k + (pageSteps e.len).length) (m - (pageSteps e.len).length)
          (fun u hu => hdiv u (List.mem_cons_of_mem e hu))
          hm'
          (by rwa [show k + (pageSteps e.len).length + (m - (pageSteps e.len).length)
            = k + m by omega])
          (fun i hi => by
            have := hok ((pageSteps e.len).length + i) (by omega)
            rwa [show k + (pageSteps e.len).length + i =
              k + ((pageSteps e.len).length + i) by omega])
        refine ⟨?_, hrec.2⟩
        show stepCalls hhdm e.addr (pageSteps e.len) ++
            (bootLoopGo mapOk hhdm es (k + (pageSteps e.len).length)).calls = _
        rw [hrec.1, plannedCalls_append_length, List.take_append_eq_append_take,
          List.take_of_length_le (show (entryCalls hhdm e).length ≤ m + 1 by
            rw [hec]; omega),
          show m + 1 - (entryCalls hhdm e).length = m - (pageSteps e.len).length + 1
            by rw [hec]; omega]
        rfl

/-! ## Top-level reduction under well-formedness -/

theorem streamBytes_append (l1 l2 : List MBTag) :
    streamBytes (l1 ++ l2) = streamBytes l1 + streamBytes l2 := by
  induction l1 with
  | nil => simp [streamBytes]
  | cons t ts ih => simp [streamBytes, ih]; omega

theorem WellFormed.split {total : Nat} {tags : List MBTag}
    (hwf : WellFormed total tags) :
    tags = tags.dropLast ++ [mb2EndTag] ∧
    (∀ t ∈ tags.dropLast, goodTagB t = true) ∧
    total = 16 + streamBytes tags.dropLast := by
  obtain ⟨hg, hlast, htot⟩ := hwf
  have hsplit : tags.dropLast ++ [mb2EndTag] = tags :=
    List.dropLast_append_getLast? mb2EndTag hlast
  refine ⟨hsplit.symm, hg, ?_⟩
  rw [htot]
  conv_lhs => rw [← hsplit]
  rw [streamBytes_append]
  have h8 : streamBytes [mb2EndTag] = 8 := rfl
  omega

/-- On a well-formed stream whose layout fits below `2^32` (no pointer
wrap), the tag loop runs the guard-free fold over the records before the
terminator. -/
theorem walkTags_wf (mbi total be : Nat) (tags : List MBTag)
    (hwf : WellFormed total tags) (hfit : mbi + 8 * total < 2 ^ 32) :
    walkTags (mbi + 8 * total) (mbi + 8) tags (initState be) =
      .ok (walkFn (mbi + 8) tags.dropLast (initState be)) := by
  obtain ⟨hsplit, hg, htot⟩ := hwf.split
  calc walkTags (mbi + 8 * total) (mbi + 8) tags (initState be)
      = walkTags (mbi + 8 * total) (mbi + 8) (tags.dropLast ++ [mb2EndTag])
          (initState be) := by rw [← hsplit]
    _ = .ok (walkFn (mbi + 8) tags.dropLast (initState be)) :=
        walkTags_eq_walkFn _ _ mb2EndTag rfl hfit _ _ hg (by omega)

theorem read_mb2i_wf (mbi total be ba : Nat) (alloc : Nat → Nat)
    (mapOk : Nat → Bool) (tags : List MBTag) (hwf : WellFormed total tags)
    (hfit : mbi + 8 * total < 2 ^ 32) :
    read_mb2i mbi total be ba alloc mapOk tags =
      .ok (mkRun mbi ba alloc mapOk (walkFn (mbi + 8) tags.dropLast (initState be))) := by
  have h16 : 16 ≤ total := by
    obtain ⟨-, -, htot⟩ := hwf.split
    omega
  rw [read_mb2i,
    show u32Mod (mbi + 8 * total) = mbi + 8 * total from Nat.mod_eq_of_lt hfit,
    show u32Mod (mbi + 8) = mbi + 8 from Nat.mod_eq_of_lt (by omega),
    walkTags_wf mbi total be tags hwf hfit]

/-! ## Page-step membership lemmas -/

theorem pageSteps_mem (len d : Nat) (hd : d < len) :
    d / 0x1000 * 0x1000 ∈ pageSteps len := by
  unfold pageSteps
  refine List.mem_map.mpr ⟨d / 0x1000, List.mem_range.mpr ?_, rfl⟩
  have h1 : d / 0x1000 * 0x1000 ≤ d := Nat.div_mul_le_self d 0x1000
  rw [Nat.lt_iff_add_one_le, Nat.le_div_iff_mul_le (by omega)]
  omega

theorem stepCalls_mem (hhdm addr j : Nat) (js : List Nat) (hj : j ∈ js) :
    (u64Mod (u64Mod (addr + j) + hhdm), u64Mod (addr + j), 1) ∈
      stepCalls hhdm addr js := by
  unfold stepCalls
  exact List.mem_map.mpr ⟨j, hj, rfl⟩

theorem plannedCalls_mem (hhdm : Nat) (ents : List MMapEntry) (e : MMapEntry)
    (he : e ∈ ents) (c : Nat × Nat × Nat) (hc : c ∈ entryCalls hhdm e) :
    c ∈ plannedCalls hhdm ents := by
  induction ents with
  | nil => simp at he
  | cons u us ih =>
      rw [plannedCalls_append_length, List.mem_append]
      rcases List.mem_cons.mp he with h | h
      · exact Or.inl (h ▸ hc)
      · exact Or.inr (ih h)

/-! ## Claim C1 -/

/-- C1: for every well-formed tag stream laid out so that its pointer
arithmetic does not wrap the 32-bit address space
(`mbi + 8*total < 2^32`), the tag-stream walker visits every record before
the terminator exactly once, in strictly increasing offset order (the
ghost `visited` trace is exactly the record offsets); iteration stops at
the kind-0 terminator or at the end bound, whichever comes first (the loop
definition), and every record of the stream — terminator included — lies
within the declared total byte length, so the walk never reads past the
stream's end.  For layouts that do wrap, the `tag < end` guard stops the
program's walk earlier, which the wrapped model also does. -/
theorem c1_walker_visits_in_order (mbi total be : Nat) (tags : List MBTag)
    (hwf : WellFormed total tags) (hfit : mbi + 8 * total < 2 ^ 32) :
    ∃ s : WalkState,
      walkTags (mbi + 8 * total) (mbi + 8) tags (initState be) = .ok s ∧
      s.visited = tagOffsets (mbi + 8) tags.dropLast ∧
      List.Chain' (· < ·) s.visited ∧
      ∀ x ∈ (tagOffsets (mbi + 8) tags).zip tags,
        x.1 + align8 x.2.size ≤ mbi + total := by
  obtain ⟨hsplit, hg, htot⟩ := hwf.split
  have hsb : streamBytes tags = streamBytes tags.dropLast + 8 := by
    conv_lhs => rw [hsplit]
    rw [streamBytes_append]
    have h8 : streamBytes [mb2EndTag] = 8 := by decide
    omega
  refine ⟨_, walkTags_wf mbi total be tags hwf hfit, ?_, ?_, ?_⟩
  · rw [walkFn_visited, show (initState be).visited = [] from rfl, List.nil_append]
  · rw [walkFn_visited, show (initState be).visited = [] from rfl, List.nil_append]
    exact tagOffsets_chain _ _ (fun t ht => (goodTag_facts (hg t ht)).2.1)
      (by omega)
  · intro x hx
    have hfit2 := tagOffsets_fit tags (mbi + 8) (by omega) x hx
    omega

def c1tags : List MBTag :=
  [⟨41, .module 0x200000 0x300000 "arctan-module.kernel.elf"⟩, mb2EndTag]

theorem c1_witness :
    ∃ s : WalkState,
      walkTags (0x10000 + 8 * 64) (0x10000 + 8) c1tags (initState 0x9000) = .ok s ∧
      s.visited = tagOffsets (0x10000 + 8) c1tags.dropLast ∧
      List.Chain' (· < ·) s.visited ∧
      ∀ x ∈ (tagOffsets (0x10000 + 8) c1tags).zip c1tags,
        x.1 + align8 x.2.size ≤ 0x10000 + 64 :=
  c1_walker_visits_in_order 0x10000 64 0x9000 c1tags (by decide) (by decide)

/-! ## Claim C2 -/

/-- C2: after a full walk over any well-formed stream laid out without
32-bit pointer wrap, the aggregator's `highest_address` equals the maximum
(fold of `max` from its all-zero initial value) over all memory-map
entries of `(base + length) mod 2^64`; moreover the per-entry update
`hstep` never decreases the field and replaces it only with a strictly
larger value, and no tag dispatch ever lowers it. -/
theorem c2_highest_address (mbi total be : Nat) (tags : List MBTag)
    (hwf : WellFormed total tags) (hfit : mbi + 8 * total < 2 ^ 32) :
    (∃ s : WalkState,
      walkTags (mbi + 8 * total) (mbi + 8) tags (initState be) = .ok s ∧
      s.meta.highest_address = (mmapSums tags).foldl max 0) ∧
    (∀ h v : Nat, h ≤ hstep h v ∧ (hstep h v ≠ h → h < hstep h v)) ∧
    (∀ (pos : Nat) (t : MBTag) (s : WalkState),
      s.meta.highest_address ≤ (processTagFn pos t s).meta.highest_address) := by
  refine ⟨⟨_, walkTags_wf mbi total be tags hwf hfit, ?_⟩, hstep_mono,
    processTagFn_highest_le⟩
  obtain ⟨hsplit, hg, -⟩ := hwf.split
  rw [walkFn_highest _ _ _ hg]
  have hdrop : mmapSums tags = mmapSums tags.dropLast := by
    conv_lhs => rw [hsplit]
    rw [mmapSums_append]
    simp [mmapSums, tagSums, mb2EndTag]
  have hfun : hstep = max := by
    funext h v
    exact hstep_eq_max h v
  rw [hdrop, hfun, show (initState be).meta.highest_address = 0 from rfl]

def c2tags : List MBTag :=
  [⟨64, .mmap 24 0 [⟨0x100000, 0x1000000, 1⟩, ⟨0, 0x100000, 2⟩]⟩, mb2EndTag]

theorem c2_witness :
    (∃ s : WalkState,
      walkTags (0x8000 + 8 * 80) (0x8000 + 8) c2tags (initState 0x9000) = .ok s ∧
      s.meta.highest_address = (mmapSums c2tags).foldl max 0) ∧
    (∀ h v : Nat, h ≤ hstep h v ∧ (hstep h v ≠ h → h < hstep h v)) ∧
    (∀ (pos : Nat) (t : MBTag) (s : WalkState),
      s.meta.highest_address ≤ (processTagFn pos t s).meta.highest_address) :=
  c2_highest_address 0x8000 80 0x9000 c2tags (by decide) (by decide)

/-! ## Claim C5 -/

def c5tags : List MBTag :=
  [⟨41, .module 0x200000 0x300000 "arctan-module.kernel.elf"⟩,
   ⟨41, .module 0x500000 0x600000 "arctan-module.kernel.elf"⟩, mb2EndTag]

/-- C5 counterexample: a stream with two Module tags both named
"arctan-module.kernel.elf" (bases 0x200000 and 0x500000, in that order)
leaves `kernel_elf = 0x500000` — the SECOND tag's base, not the first as
the claim states: the code overwrites the field on every match. -/
theorem c5_counterexample :
    Except.map (fun r => r.meta.kernel_elf)
        (read_mb2i 0x8000 112 0 0 (fun _ => 0) (fun _ => true) c5tags) =
      .ok 0x500000 ∧ (0x500000 : Nat) ≠ 0x200000 :=
  ⟨by decide, by decide⟩

/-- C5 amended: module-name matching is exact-string and LAST-match-wins:
after the walk, `kernel_elf` equals the base of the last module tag whose
name equals "arctan-module.kernel.elf" (0 if none), and `initramfs` /
`initramfs_size` come from the last module tag named
"arctan-module.initramfs.cpio", with size = `(end - start) mod 2^32`. -/
theorem c5_amended_last_match (mbi total be : Nat) (tags : List MBTag)
    (hwf : WellFormed total tags) (hfit : mbi + 8 * total < 2 ^ 32) :
    ∃ s : WalkState,
      walkTags (mbi + 8 * total) (mbi + 8) tags (initState be) = .ok s ∧
      s.meta.kernel_elf = (kernelModStarts tags.dropLast).getLastD 0 ∧
      s.meta.initramfs =
        ((initramfsMods tags.dropLast).map (fun m => m.1)).getLastD 0 ∧
      s.meta.initramfs_size =
        ((initramfsMods tags.dropLast).map (fun m => u32sub m.2 m.1)).getLastD 0 := by
  refine ⟨_, walkTags_wf mbi total be tags hwf hfit, ?_, ?_, ?_⟩
  · rw [walkFn_kernel]; rfl
  · rw [(walkFn_initramfs _ _ _).1]; rfl
  · rw [(walkFn_initramfs _ _ _).2]; rfl

def c5wtags : List MBTag :=
  [⟨41, .module 0x200000 0x300000 "arctan-module.kernel.elf"⟩,
   ⟨45, .module 0x400000 0x480000 "arctan-module.initramfs.cpio"⟩, mb2EndTag]

theorem c5_witness :
    ∃ s : WalkState,
      walkTags (0x8000 + 8 * 112) (0x8000 + 8) c5wtags (initState 0) = .ok s ∧
      s.meta.kernel_elf = (kernelModStarts c5wtags.dropLast).getLastD 0 ∧
      s.meta.initramfs =
        ((initramfsMods c5wtags.dropLast).map (fun m => m.1)).getLastD 0 ∧
      s.meta.initramfs_size =
        ((initramfsMods c5wtags.dropLast).map (fun m => u32sub m.2 m.1)).getLastD 0 :=
  c5_amended_last_match 0x8000 112 0 c5wtags (by decide) (by decide)

/-! ## Claim C9 -/

def c9tags : List MBTag := [⟨12, .loadBaseAddr 0x400000⟩, mb2EndTag]

/-- C9: the claim says only AcpiNew/AcpiOld tags write `rsdp`, but the
LOAD_BASE_ADDR case of the switch has no `break` and falls through into
the ACPI cases: a stream containing a single LoadBaseAddr tag (at address
0x8008) and no ACPI tag at all ends with `rsdp = 0x8010` — the address
8 bytes past the LoadBaseAddr tag's header — instead of remaining 0. -/
theorem c9_load_base_addr_writes_rsdp :
    Except.map (fun r => r.meta.rsdp)
        (read_mb2i 0x8000 32 0 0 (fun _ => 0) (fun _ => true) c9tags) =
      .ok 0x8010 ∧ (0x8010 : Nat) ≠ 0 ∧ (0x8010 : Nat) = 0x8008 + 8 :=
  ⟨by decide, by decide, by decide⟩

/-! ## Claim C7 -/

def c7tags : List MBTag := [⟨24, .mmap 0 0 []⟩, mb2EndTag]

/-- C7 counterexample: on a stream whose memory-map tag declares
`entry_size = 0`, `read_mb2i` is NOT stopped by a detected fatal
stream-corruption error — it performs the division
`(mmap->size - 16) / mmap->entry_size` with the zero divisor and faults
(undefined behaviour, modelled as `MBFault.divisionFault`); no
error-handling path exists in the code. -/
theorem c7_counterexample :
    read_mb2i 0x8000 40 0 0 (fun _ => 0) (fun _ => true) c7tags =
      .error .divisionFault := by decide

/-- C7 amended: the entry count is `(size - 16) / entry_size` with no
divisor guard: a zero `entry_size` makes the dispatch perform the division
and fault, while any nonzero `entry_size` proceeds normally, and a
memory-map tag with zero entries (`size = 16`) is handled without any
division fault — the computed count is 0, the entry loop runs zero times
and `highest_address` is untouched. -/
theorem c7_amended_division (pos size es ev : Nat) (ents : List MMapEntry)
    (s : WalkState) :
    (es = 0 → processTag pos ⟨size, .mmap es ev ents⟩ s = .error .divisionFault) ∧
    (es ≠ 0 → processTag pos ⟨size, .mmap es ev ents⟩ s =
      .ok (processTagFn pos ⟨size, .mmap es ev ents⟩ s)) ∧
    (es ≠ 0 → size = 16 →
      (processTagFn pos ⟨size, .mmap es ev ents⟩ s).entries = 0 ∧
      (processTagFn pos ⟨size, .mmap es ev ents⟩ s).meta.highest_address =
        s.meta.highest_address) := by
  refine ⟨?_, ?_, ?_⟩
  · intro h
    subst h
    rfl
  · intro h
    simp [processTag, tagFaults, h]
  · intro h hsz
    subst hsz
    have hbits : entriesBits 16 es = 0 := by
      unfold entriesBits u32sub
      simp
    simp [processTagFn, hbits, intLoopCount, mmapHighestGo]

theorem c7_witness :
    (0 = 0 → processTag 0x8008 ⟨24, .mmap 0 0 []⟩ (initState 0) =
      .error .divisionFault) ∧
    ((24 : Nat) ≠ 0 → processTag 0x8008 ⟨16, .mmap 24 0 []⟩ (initState 0) =
      .ok (processTagFn 0x8008 ⟨16, .mmap 24 0 []⟩ (initState 0))) ∧
    ((24 : Nat) ≠ 0 ∧ (16 : Nat) = 16 ∧
      (processTagFn 0x8008 ⟨16, .mmap 24 0 []⟩ (initState 0)).entries = 0) :=
  ⟨(c7_amended_division 0x8008 24 0 0 [] (initState 0)).1,
   (c7_amended_division 0x8008 16 24 0 [] (initState 0)).2.1,
   by decide, rfl,
   ((c7_amended_division 0x8008 16 24 0 [] (initState 0)).2.2 (by decide) rfl).1⟩

/-! ## Run-level helper lemmas -/

theorem processTagFn_boot_info (pos : Nat) (t : MBTag) (s : WalkState) :
    (processTagFn pos t s).meta.boot_info = s.meta.boot_info := by
  obtain ⟨size, body⟩ := t
  cases body <;> simp only [processTagFn] <;> (repeat' split) <;> rfl

theorem walkFn_boot_info (pre : List MBTag) :
    ∀ (pos : Nat) (s : WalkState),
      (walkFn pos pre s).meta.boot_info = s.meta.boot_info := by
  induction pre with
  | nil => intro pos s; rfl
  | cons t ts ih => intro pos s; rw [walkFn, ih, processTagFn_boot_info]

theorem mkRun_eval (mbi ba : Nat) (alloc : Nat → Nat) (mapOk : Nat → Bool)
    (s : WalkState) (ents : List MMapEntry)
    (hn : (mmapEntsOf s.mmapTag).take (intLoopCount s.entries) = ents) :
    mkRun mbi ba alloc mapOk s =
      { meta :=
          if (bootLoopGo mapOk hhdmBase ents 0).halted ||
              (bootLoopGo mapOk hhdmBase ents 0).diverged then
            { s.meta with arc_mmap := alloc (arcMmapSize s.entries),
                          arc_mmap_len := s.entries, hhdm_vaddr := hhdmBase }
          else
            { s.meta with arc_mmap := alloc (arcMmapSize s.entries),
                          arc_mmap_len := s.entries, hhdm_vaddr := hhdmBase,
                          boot_info := ba },
        mbiPhys := u32Mod mbi,
        pmmMMapArg := s.mmapTag.map (fun i => i.pos),
        pmmReservedArg := u32Mod s.bootstrap_end,
        allocArg := arcMmapSize s.entries,
        memsetLen := arcMmapSize s.entries,
        normalized := (bootLoopGo mapOk hhdmBase ents 0).normalized,
        mapCalls := (bootLoopGo mapOk hhdmBase ents 0).calls,
        termCalls := s.termCalls,
        visited := s.visited,
        halted := (bootLoopGo mapOk hhdmBase ents 0).halted,
        diverged := (bootLoopGo mapOk hhdmBase ents 0).diverged,
        ret := if (bootLoopGo mapOk hhdmBase ents 0).halted ||
                  (bootLoopGo mapOk hhdmBase ents 0).diverged then none
               else some 0 } := by
  subst hn
  rfl

/-- What the walk guarantees when the stream's last memory-map tag is
`info`: the `mmap` pointer and `entries` local hold that tag's data. -/
theorem walk_mmap_facts (mbi total be : Nat) (tags : List MBTag)
    (info : MMapTagInfo) (hwf : WellFormed total tags)
    (hmm : lastMMapAcc (mbi + 8) tags.dropLast none = some info) :
    (walkFn (mbi + 8) tags.dropLast (initState be)).mmapTag = some info ∧
    (walkFn (mbi + 8) tags.dropLast (initState be)).entries = info.ents.length ∧
    info.ents.length < 2 ^ 31 := by
  obtain ⟨-, hg, -⟩ := hwf.split
  have hmmap := walkFn_mmap tags.dropLast (mbi + 8) (initState be) rfl
  have hbits := mmapBits_of_good tags.dropLast (mbi + 8) info hg hmm
  refine ⟨?_, ?_, hbits.2⟩
  · rw [hmmap.1]; exact hmm
  · rw [hmmap.2, show lastMMapAcc (mbi + 8) tags.dropLast
        (initState be).mmapTag = some info from hmm]
    exact hbits.1

theorem take_ents (s : WalkState) (info : MMapTagInfo)
    (h1 : s.mmapTag = some info) (h2 : s.entries = info.ents.length)
    (h3 : info.ents.length < 2 ^ 31) :
    (mmapEntsOf s.mmapTag).take (intLoopCount s.entries) = info.ents := by
  rw [h1, h2]
  show info.ents.take (intLoopCount info.ents.length) = info.ents
  rw [intLoopCount, if_pos h3]
  exact List.take_length info.ents

/-! ## Claim C3 -/

def c3tags : List MBTag := [⟨40, .mmap 24 0 [⟨0x100000, 0x1000, 1⟩]⟩, mb2EndTag]

/-- C3 counterexample: for the single reported region
`[0x100000, 0x101000)` the byte offset `o = 0x100000` lies in
`[base, base + length)`, and the claim's formula gives
`physical = base + floor(o/4096)*4096 = 0x200000`; but the run's only
`map_page` call has physical address `0x100000` — the code steps from the
region base (`entry.addr + j`), it never maps `base + floor(o/4096)*4096`
for an absolute offset `o`. -/
theorem c3_counterexample :
    Except.map (fun r => r.mapCalls)
        (read_mb2i 0x8000 56 0 0 (fun _ => 0x50000) (fun _ => true) c3tags) =
      .ok [(u64Mod (0x100000 + hhdmBase), 0x100000, 1)] ∧
    (0x100000 ≤ 0x100000 ∧ (0x100000 : Nat) < 0x100000 + 0x1000) ∧
    0x100000 + 0x100000 / 4096 * 4096 = 0x200000 ∧
    (∀ c ∈ [(u64Mod (0x100000 + hhdmBase), 0x100000, 1)], c.2.1 ≠ 0x200000) :=
  ⟨by decide, ⟨by decide, by decide⟩, by decide, by decide⟩

/-- C3 amended: after a run in which no `map_page` call fails — on a
stream laid out without 32-bit pointer wrap and whose region lengths keep
the page loop terminating — for every entry of the memory-map tag used and
every byte offset `d` in `[0, length)` measured from the entry's base, a
`map_page` request was issued with physical
`(base + floor(d/4096)*4096) mod 2^64`, virtual equal to that physical
address plus `directMapBase` (mod 2^64) and the writable flag set; the
full call list is exactly the per-region page steps, region by region in
order of appearance, so a region whose length is not a multiple of 4096
still gets its final partial page covered. -/
theorem c3_amended_mapping (mbi total be ba : Nat) (alloc : Nat → Nat)
    (mapOk : Nat → Bool) (tags : List MBTag) (info : MMapTagInfo)
    (e : MMapEntry) (d : Nat)
    (hwf : WellFormed total tags) (hfit : mbi + 8 * total < 2 ^ 32)
    (hmm : lastMMapAcc (mbi + 8) tags.dropLast none = some info)
    (hdiv : ∀ u ∈ info.ents, pageStepsDiverge u.len = false)
    (he : e ∈ info.ents) (hd : d < e.len)
    (hok : ∀ i, mapOk i = true) :
    ∃ r : MB2Run, read_mb2i mbi total be ba alloc mapOk tags = .ok r ∧
      r.halted = false ∧
      r.mapCalls = plannedCalls hhdmBase info.ents ∧
      (u64Mod (u64Mod (e.addr + d / 4096 * 4096) + hhdmBase),
        u64Mod (e.addr + d / 4096 * 4096), 1) ∈ r.mapCalls := by
  have hfacts := walk_mmap_facts mbi total be tags info hwf hmm
  have hn := take_ents _ info hfacts.1 hfacts.2.1 hfacts.2.2
  have hred := read_mb2i_wf mbi total be ba alloc mapOk tags hwf hfit
  rw [mkRun_eval mbi ba alloc mapOk _ info.ents hn,
    bootLoopGo_ok mapOk hhdmBase info.ents 0 hdiv
      (fun i _ => by rw [Nat.zero_add]; exact hok i)] at hred
  refine ⟨_, hred, rfl, rfl, ?_⟩
  show _ ∈ plannedCalls hhdmBase info.ents
  exact plannedCalls_mem hhdmBase info.ents e he _
    (stepCalls_mem hhdmBase e.addr (d / 4096 * 4096) (pageSteps e.len)
      (pageSteps_mem e.len d hd))

def c3wtags : List MBTag := [⟨40, .mmap 24 0 [⟨0x100000, 0x1800, 1⟩]⟩, mb2EndTag]

theorem c3_witness :
    ∃ r : MB2Run,
      read_mb2i 0x8000 56 0 0 (fun _ => 0x50000) (fun _ => true) c3wtags = .ok r ∧
      r.halted = false ∧
      r.mapCalls = plannedCalls hhdmBase [⟨0x100000, 0x1800, 1⟩] ∧
      (u64Mod (u64Mod (0x100000 + 0x1700 / 4096 * 4096) + hhdmBase),
        u64Mod (0x100000 + 0x1700 / 4096 * 4096), 1) ∈ r.mapCalls :=
  c3_amended_mapping 0x8000 56 0 0 (fun _ => 0x50000) (fun _ => true) c3wtags
    ⟨0x8008, 40, 24, 0, [⟨0x100000, 0x1800, 1⟩]⟩ ⟨0x100000, 0x1800, 1⟩ 0x1700
    (by decide) (by decide) (by decide) (by decide) (by decide) (by decide)
    (fun _ => rfl)

/-! ## Claim C4 -/

/-- C4: for a completed run (no mapping failure), the normalized map is a
1:1 same-order re-encoding of the memory-map tag's raw entries: the list
written is exactly `map` of the raw entries with identical (kind, base,
length) fields, its length is the entry count, and `arc_mmap_len`
published in the boot metadata equals that raw entry count. -/
theorem c4_normalized_map (mbi total be ba : Nat) (alloc : Nat → Nat)
    (mapOk : Nat → Bool) (tags : List MBTag) (info : MMapTagInfo)
    (hwf : WellFormed total tags) (hfit : mbi + 8 * total < 2 ^ 32)
    (hmm : lastMMapAcc (mbi + 8) tags.dropLast none = some info)
    (hdiv : ∀ u ∈ info.ents, pageStepsDiverge u.len = false)
    (hok : ∀ i, mapOk i = true) :
    ∃ r : MB2Run, read_mb2i mbi total be ba alloc mapOk tags = .ok r ∧
      r.normalized = info.ents.map (fun e => ⟨e.typ, e.addr, e.len⟩) ∧
      r.normalized.length = info.ents.length ∧
      r.meta.arc_mmap_len = info.ents.length := by
  have hfacts := walk_mmap_facts mbi total be tags info hwf hmm
  have hn := take_ents _ info hfacts.1 hfacts.2.1 hfacts.2.2
  have hred := read_mb2i_wf mbi total be ba alloc mapOk tags hwf hfit
  rw [mkRun_eval mbi ba alloc mapOk _ info.ents hn,
    bootLoopGo_ok mapOk hhdmBase info.ents 0 hdiv
      (fun i _ => by rw [Nat.zero_add]; exact hok i)] at hred
  refine ⟨_, hred, rfl, by simp, ?_⟩
  show (walkFn (mbi + 8) tags.dropLast (initState be)).entries = info.ents.length
  exact hfacts.2.1

def c4tags : List MBTag :=
  [⟨64, .mmap 24 0 [⟨0x100000, 0x2000, 1⟩, ⟨0, 0x1000, 2⟩]⟩, mb2EndTag]

theorem c4_witness :
    ∃ r : MB2Run,
      read_mb2i 0x8000 80 0 0 (fun _ => 0x50000) (fun _ => true) c4tags = .ok r ∧
      r.normalized = ([⟨0x100000, 0x2000, 1⟩, ⟨0, 0x1000, 2⟩] : List MMapEntry).map
        (fun e => ⟨e.typ, e.addr, e.len⟩) ∧
      r.normalized.length =
        ([⟨0x100000, 0x2000, 1⟩, ⟨0, 0x1000, 2⟩] : List MMapEntry).length ∧
      r.meta.arc_mmap_len =
        ([⟨0x100000, 0x2000, 1⟩, ⟨0, 0x1000, 2⟩] : List MMapEntry).length :=
  c4_normalized_map 0x8000 80 0 0 (fun _ => 0x50000) (fun _ => true) c4tags
    ⟨0x8008, 64, 24, 0, [⟨0x100000, 0x2000, 1⟩, ⟨0, 0x1000, 2⟩]⟩
    (by decide) (by decide) (by decide) (by decide) (fun _ => rfl)

/-! ## Claim C8 -/

/-- C8: if the `map_page` collaborator fails for the first time on the
`m`-th call of the run (and that call is among the requests the regions
generate), the bootstrapper does not return normally: `ARC_HANG` is
reached (`halted`), the return value is never produced, the call trace
stops right at the failing request — exactly the first `m + 1` planned
calls, none after it — and `_boot_meta.boot_info` is never published
(it keeps its initial 0). -/
theorem c8_mapper_failure_halts (mbi total be ba : Nat) (alloc : Nat → Nat)
    (mapOk : Nat → Bool) (tags : List MBTag) (info : MMapTagInfo) (m : Nat)
    (hwf : WellFormed total tags) (hfit : mbi + 8 * total < 2 ^ 32)
    (hmm : lastMMapAcc (mbi + 8) tags.dropLast none = some info)
    (hdiv : ∀ u ∈ info.ents, pageStepsDiverge u.len = false)
    (hm : m < (plannedCalls hhdmBase info.ents).length)
    (hf : mapOk m = false)
    (hbefore : ∀ i < m, mapOk i = true) :
    ∃ r : MB2Run, read_mb2i mbi total be ba alloc mapOk tags = .ok r ∧
      r.halted = true ∧ r.ret = none ∧
      r.mapCalls = (plannedCalls hhdmBase info.ents).take (m + 1) ∧
      r.meta.boot_info = 0 := by
  have hfacts := walk_mmap_facts mbi total be tags info hwf hmm
  have hn := take_ents _ info hfacts.1 hfacts.2.1 hfacts.2.2
  have hred := read_mb2i_wf mbi total be ba alloc mapOk tags hwf hfit
  rw [mkRun_eval mbi ba alloc mapOk _ info.ents hn] at hred
  have hfail := bootLoopGo_fail mapOk hhdmBase info.ents 0 m hdiv hm
    (by rwa [Nat.zero_add]) (fun i hi => by rw [Nat.zero_add]; exact hbefore i hi)
  refine ⟨_, hred, hfail.2, ?_, hfail.1, ?_⟩
  · show (if (bootLoopGo mapOk hhdmBase info.ents 0).halted ||
            (bootLoopGo mapOk hhdmBase info.ents 0).diverged then none
          else some 0 : Option Nat) = none
    rw [hfail.2]
    rfl
  · show (if (bootLoopGo mapOk hhdmBase info.ents 0).halted ||
            (bootLoopGo mapOk hhdmBase info.ents 0).diverged then _ else _ :
      BootMeta).boot_info = 0
    rw [hfail.2]
    show (walkFn (mbi + 8) tags.dropLast (initState be)).meta.boot_info = 0
    rw [walkFn_boot_info]
    rfl

def c8tags : List MBTag := [⟨40, .mmap 24 0 [⟨0x100000, 0x2000, 1⟩]⟩, mb2EndTag]

theorem c8_witness :
    1 < (plannedCalls hhdmBase [⟨0x100000, 0x2000, 1⟩]).length ∧
    ∃ r : MB2Run,
      read_mb2i 0x8000 56 0 0x7000 (fun _ => 0x50000) (fun k => k != 1) c8tags =
        .ok r ∧
      r.halted = true ∧ r.ret = none ∧
      r.mapCalls = (plannedCalls hhdmBase [⟨0x100000, 0x2000, 1⟩]).take (1 + 1) ∧
      r.meta.boot_info = 0 :=
  ⟨by decide,
   c8_mapper_failure_halts 0x8000 56 0 0x7000 (fun _ => 0x50000) (fun k => k != 1)
     c8tags ⟨0x8008, 40, 24, 0, [⟨0x100000, 0x2000, 1⟩]⟩ 1
     (by decide) (by decide) (by decide) (by decide) (by decide) (by decide)
     (by decide)⟩

/-! ## Claim C10 -/

theorem processTagFn_not_mmap (pos : Nat) (t : MBTag) (s : WalkState)
    (h : isMMapTag t = false) :
    (processTagFn pos t s).mmapTag = s.mmapTag ∧
    (processTagFn pos t s).entries = s.entries ∧ tagFaults t = false := by
  obtain ⟨size, body⟩ := t
  cases body
  case mmap es ev ents => simp [isMMapTag] at h
  all_goals
    refine ⟨?_, ?_, rfl⟩ <;> simp only [processTagFn] <;> (repeat' split) <;> rfl

/-- A stream position where `lastMMapAcc` ends `none` means no memory-map
record occurs at all (and the accumulator was already empty). -/
theorem lastMMapAcc_none (ts : List MBTag) :
    ∀ (pos : Nat) (acc : Option MMapTagInfo),
      lastMMapAcc pos ts acc = none →
      acc = none ∧ ∀ t ∈ ts, isMMapTag t = false := by
  induction ts with
  | nil => intro pos acc h; exact ⟨h, by simp⟩
  | cons t ts ih =>
      intro pos acc h
      rw [lastMMapAcc_cons] at h
      obtain ⟨hacc, hrest⟩ := ih _ _ h
      obtain ⟨size, body⟩ := t
      cases body
      case mmap es ev ents => simp [mmapUpd] at hacc
      all_goals
        exact ⟨hacc, fun u hu => by
          rcases List.mem_cons.mp hu with h' | h'
          · subst h'; rfl
          · exact hrest u h'⟩

/-- Whatever prefix of a memory-map-free stream the loop processes — it
may stop early at a wrapped end bound — `mmap` stays NULL and `entries`
stays untouched, and no division fault can occur. -/
theorem walkTags_no_mmap (endB : Nat) (ts : List MBTag) :
    ∀ (pos : Nat) (s : WalkState), (∀ t ∈ ts, isMMapTag t = false) →
      ∃ s', walkTags endB pos ts s = .ok s' ∧ s'.mmapTag = s.mmapTag ∧
        s'.entries = s.entries := by
  induction ts with
  | nil => intro pos s _; exact ⟨s, rfl, rfl, rfl⟩
  | cons t ts ih =>
      intro pos s h
      rw [walkTags]
      by_cases hc : t.body.typeNum ≠ 0 ∧ pos < endB
      · rw [if_pos hc]
        have hp := processTagFn_not_mmap pos t s (h t (List.mem_cons_self t ts))
        have hpt : processTag pos t s = .ok (processTagFn pos t s) := by
          rw [processTag, hp.2.2]
          rfl
        rw [hpt]
        obtain ⟨s', h1, h2, h3⟩ := ih (u32Mod (pos + align8 t.size))
          (processTagFn pos t s) (fun u hu => h u (List.mem_cons_of_mem t hu))
        exact ⟨s', h1, by rw [h2, hp.1], by rw [h3, hp.2.1]⟩
      · rw [if_neg hc]
        exact ⟨s, rfl, rfl, rfl⟩

/-- C10: on any well-formed stream containing no MemoryMap tag,
`read_mb2i` runs its normal path to completion: `init_pmm` is called with
a NULL memory-map pointer, `arc_mmap_len` is published as 0, no `map_page`
call is made, the system does not halt and the function returns 0 — the
absent memory map is not detected or reported as an error.  This holds for
every placement of the stream, including layouts whose pointer arithmetic
wraps: however much of the stream the loop processes, no memory-map tag is
among it. -/
theorem c10_no_mmap_completes (mbi total be ba : Nat) (alloc : Nat → Nat)
    (mapOk : Nat → Bool) (tags : List MBTag)
    (hwf : WellFormed total tags)
    (hmm : lastMMapAcc (mbi + 8) tags.dropLast none = none) :
    ∃ r : MB2Run, read_mb2i mbi total be ba alloc mapOk tags = .ok r ∧
      r.pmmMMapArg = none ∧ r.meta.arc_mmap_len = 0 ∧ r.mapCalls = [] ∧
      r.halted = false ∧ r.ret = some 0 := by
  obtain ⟨hsplit, hg, -⟩ := hwf.split
  have hdrop := (lastMMapAcc_none tags.dropLast (mbi + 8) none hmm).2
  have hall : ∀ t ∈ tags, isMMapTag t = false := by
    intro t ht
    rw [hsplit] at ht
    rcases List.mem_append.mp ht with h | h
    · exact hdrop t h
    · rw [List.mem_singleton.mp h]
      rfl
  obtain ⟨s', hwalk, hmt, hent⟩ := walkTags_no_mmap (u32Mod (mbi + 8 * total))
    tags (u32Mod (mbi + 8)) (initState be) hall
  have hmt0 : s'.mmapTag = none := by rw [hmt]; rfl
  have hent0 : s'.entries = 0 := by rw [hent]; rfl
  have hn : (mmapEntsOf s'.mmapTag).take (intLoopCount s'.entries) =
      ([] : List MMapEntry) := by
    rw [hmt0, hent0]
    rfl
  have hred : read_mb2i mbi total be ba alloc mapOk tags =
      .ok (mkRun mbi ba alloc mapOk s') := by
    rw [read_mb2i, hwalk]
  rw [mkRun_eval mbi ba alloc mapOk s' [] hn] at hred
  refine ⟨_, hred, ?_, ?_, rfl, rfl, rfl⟩
  · show s'.mmapTag.map (fun i => i.pos) = none
    rw [hmt0]
    rfl
  · show s'.entries = 0
    exact hent0

def c10tags : List MBTag :=
  [⟨41, .module 0x200000 0x300000 "arctan-module.kernel.elf"⟩, mb2EndTag]

theorem c10_witness :
    ∃ r : MB2Run,
      read_mb2i 0x8000 64 0x9000 0x7000 (fun _ => 0x50000) (fun _ => true)
        c10tags = .ok r ∧
      r.pmmMMapArg = none ∧ r.meta.arc_mmap_len = 0 ∧ r.mapCalls = [] ∧
      r.halted = false ∧ r.ret = some 0 :=
  c10_no_mmap_completes 0x8000 64 0x9000 0x7000 (fun _ => 0x50000)
    (fun _ => true) c10tags (by decide) (by decide)

/-! ## Claim C6 -/

def c6tags : List MBTag :=
  [⟨64, .mmap 24 0 [⟨0x100000, 0x1000, 1⟩, ⟨0x200000, 0x1000, 2⟩]⟩, mb2EndTag]

/-- C6: the code contradicts the claim on a 2-entry memory map.  The
buffer size is `entries * sizeof(struct ARC_MMap) / 0x1000 = 40/4096 = 0`
(floor division, NOT rounded up — the claim's round-up gives 1 page), the
allocator is asked for that 0, `memset` zeroes only those 0 bytes (not the
full buffer), and an allocator failure is not fatal: with the allocator
returning 0 (NULL) the run still completes normally (`return 0`, no
halt) instead of halting. -/
theorem c6_alloc_size_bug :
    Except.map (fun r => (r.allocArg, r.memsetLen, r.meta.arc_mmap, r.ret, r.halted))
        (read_mb2i 0x8000 80 0 0 (fun _ => 0) (fun _ => true) c6tags) =
      .ok (0, 0, 0, some 0, false) ∧
    (2 * 20 + 4095) / 4096 = 1 ∧ (1 : Nat) ≠ 0 :=
  ⟨by decide, by decide, by decide⟩

end MB2
